import Mathlib

/-!
Verification of the flowpipe approximation pipeline of `src/flowp/flowp.py`.

The module computes a one-step over-approximation of the reachable set of a
linear dynamical system: it propagates each vertex of an initial 2D region
through the matrix exponential of `step_size * flow`, Minkowski-sums the
result with a bloating region, unions in the initial region, and reduces
every emitted point set to its minimal convex-hull vertex representation.

Embedding conventions:
* Points are pairs of rationals (the code works with 2D floating-point
  vectors; ℚ is the exact-arithmetic idealization of those).
* The call `scipy.linalg.expm` is an external numerical library primitive
  whose output is a 2×2 matrix; the embedding takes it as an explicit
  function parameter `matExp` so that claims about the pipeline quantify
  over it, and claims that need properties of the true matrix exponential
  (such as `exp 0 = 1`) state them as hypotheses that the scipy primitive
  satisfies, or prove them of Mathlib's `NormedSpace.exp` on real matrices.
* The call `scipy.spatial.ConvexHull` is an external geometric library
  primitive; it is embedded by its exact-arithmetic semantics: it fails on
  a degenerate input (fewer than 3 points, or all points collinear) and
  otherwise returns exactly the extremal points of the input — those points
  that are not convex combinations of the other input points.
* Python exceptions are modelled with `Except`; an exception aborts the
  whole call with no partial result, exactly as the `Except` monad does.
-/

deriving instance DecidableEq for Except

unseal Rat.mul Rat.add Rat.sub Rat.inv

namespace Flowp

/-- A 2D point, one entry of a V-representation. -/
abbrev Pt : Type := ℚ × ℚ

/-- A 2×2 matrix, the type of the `flow` argument and of `matrix_exp`. -/
structure Mat2 where
  a : ℚ
  b : ℚ
  c : ℚ
  d : ℚ
deriving DecidableEq

/-- The zero flow matrix. -/
def Mat2.zeroM : Mat2 := ⟨0, 0, 0, 0⟩

/-- The identity matrix, the value of `exp(0)`. -/
def Mat2.idM : Mat2 := ⟨1, 0, 0, 1⟩

/-- Scalar multiple of a matrix: models the Python expression
`step_size * flow`. -/
def smulM (s : ℚ) (M : Mat2) : Mat2 := ⟨s * M.a, s * M.b, s * M.c, s * M.d⟩

/-- Matrix-vector product: models the Python expression `matrix_exp @ v`. -/
def mulVec (M : Mat2) (v : Pt) : Pt :=
  (M.a * v.1 + M.b * v.2, M.c * v.1 + M.d * v.2)

/-- The 2D cross product (signed parallelogram area) of two vectors. -/
def cross (u v : Pt) : ℚ := u.1 * v.2 - u.2 * v.1

/-- The dot product of two vectors. -/
def dotp (u v : Pt) : ℚ := u.1 * v.1 + u.2 * v.2

/-- Decidable test for membership of `p` in the closed segment from `x` to
`y`: `p` is on the line through `x` and `y` and between them. -/
def inSegB (p x y : Pt) : Bool :=
  decide (cross (y - x) (p - x) = 0) && decide (dotp (x - p) (y - p) ≤ 0)

/-- Decidable test for membership of `p` in the convex hull of the three
points `x, y, z`: the standard same-sign orientation test for a proper
triangle, and a segment test when the triangle is degenerate. -/
def inTriB (p x y z : Pt) : Bool :=
  if cross (y - x) (z - x) = 0 then
    inSegB p x y || inSegB p y z || inSegB p x z
  else
    (decide (0 ≤ cross (y - x) (p - x)) && decide (0 ≤ cross (z - y) (p - y)) &&
      decide (0 ≤ cross (x - z) (p - z))) ||
    (decide (cross (y - x) (p - x) ≤ 0) && decide (cross (z - y) (p - y) ≤ 0) &&
      decide (cross (x - z) (p - z) ≤ 0))

/-- Decidable test that the point `p` of the set `S` is redundant for the
hull: `p` lies in the convex hull of the other points of `S` (by
Carathéodory, in the plane this means inside a triangle over the others). -/
def redundantB (p : Pt) (S : List Pt) : Bool :=
  let others := S.dedup.filter fun q => decide ¬(q = p)
  others.any fun x => others.any fun y => others.any fun z => inTriB p x y z

/-- Decidable test for the degenerate-geometry failure condition of the
hull primitive: fewer than 3 points, or an exactly collinear point set. -/
def degenerateB (S : List Pt) : Bool :=
  decide (S.length < 3) ||
  (S.all fun x => S.all fun y => S.all fun z => decide (cross (y - x) (z - x) = 0))

/-- Error kinds of the pipeline (spec section 7). The code in scope can only
ever raise the degenerate-geometry error, from the hull primitive. -/
inductive GeomError where
  | degenerateGeometry
  | invalidInput
  | numericalFailure
deriving DecidableEq

/-- Embedding of the hull-reduction step
`conv_hull = scipy.spatial.ConvexHull(vertices); [conv_hull.points[v] for v in conv_hull.vertices]`:
fail on degenerate input, otherwise keep exactly the extremal input points
(each input point once, dropping those inside the hull of the others). -/
def ConvexHull (S : List Pt) : Except GeomError (List Pt) :=
  if degenerateB S then .error .degenerateGeometry
  else .ok (S.dedup.filter fun p => !redundantB p S)

/-- A named polytope record, the output dict
`\x7b'name': ..., 'vertices': ...\x7d` of the Python code. -/
structure Polytope where
  name : String
  vertices : List Pt
deriving DecidableEq

/-- The Minkowski-sum point set
`[v1 + v2 for v1, v2 in product(flowpipe, bloating)]`: all pairwise sums in
the order of the itertools Cartesian product. -/
def minkSum (fl bl : List Pt) : List Pt :=
  fl.flatMap fun v1 => bl.map fun v2 => v1 + v2

/-- The propagated point set (line 54 of flowp.py):
`flowpipe = [matrix_exp @ v for v in initial_location]` with
`matrix_exp = matExp(step_size * flow)`. -/
def flowpipeOf (matExp : Mat2 → Mat2) (initial_location : List Pt)
    (flow : Mat2) (step_size : ℚ) : List Pt :=
  initial_location.map (mulVec (matExp (smulM step_size flow)))

/-- The four (or three) polytope records of `approx` as built before the
hull-reduction loop (lines 53-81 of flowp.py). -/
def prePolytopes (matExp : Mat2 → Mat2) (initial_location : List Pt)
    (flow : Mat2) (bloating : List Pt) (step_size : ℚ) : List Polytope :=
  let flowpipe := flowpipeOf matExp initial_location flow step_size
  let bloated_flowpipe := if bloating.isEmpty then flowpipe
    else minkSum flowpipe bloating
  let bloated_flowpipe_with_init := bloated_flowpipe ++ initial_location
  [ ⟨"Initial Valuation I", initial_location⟩,
    ⟨"mat_exp(flow) * I", flowpipe⟩,
    ⟨"Omega_1: convHull(mink_sum(mat_exp(flow) * I, bloat), I)",
      bloated_flowpipe_with_init⟩ ] ++
  (if bloating.isEmpty then [] else [⟨"Bloating", bloating⟩])

/-- The hull-reduction loop (lines 83-86 of flowp.py): replace each record's
vertex list by its hull reduction; the first degenerate set aborts the whole
call with no partial result. -/
def hullEach : List Polytope → Except GeomError (List Polytope)
  | [] => .ok []
  | P :: rest =>
    match ConvexHull P.vertices with
    | .error e => .error e
    | .ok vs =>
      match hullEach rest with
      | .error e => .error e
      | .ok rest2 => .ok (⟨P.name, vs⟩ :: rest2)

/-- The rendering collaborator `plot_polytopes` (lines 94-145): draws the
polytopes and returns `None`; modelled as the `none` result since rendering
is outside the computational core. -/
def plot_polytopes (_polytopes : List Polytope) : Option (List Polytope) :=
  none

/-- Declared default of the `step_size` parameter of approx (line 13 of
flowp.py: `step_size: float=1`). -/
def step_size_default : ℚ := 1

/-- Declared default of the `plot` parameter of approx (line 13 of
flowp.py: `plot: bool=True`): a call that omits the flag renders. -/
def plot_default : Bool := true

/-- Embedding of `approx` (lines 12-91 of flowp.py). `matExp` stands for
the external primitive `scipy.linalg.expm`; it is applied to
`step_size * flow` exactly as in line 53. A call that omits `step_size` or
`plot` passes `step_size_default` or `plot_default`. The result is `none`
when the records were handed to the renderer, `some records` when returned
as data. -/
def approx (matExp : Mat2 → Mat2) (initial_location : List Pt) (flow : Mat2)
    (bloating : List Pt) (step_size : ℚ) (plot : Bool) :
    Except GeomError (Option (List Polytope)) :=
  match hullEach (prePolytopes matExp initial_location flow bloating step_size) with
  | .error e => .error e
  | .ok polytopes => .ok (if plot then plot_polytopes polytopes else some polytopes)

/-- Relation between a pre-hull record and the corresponding emitted record. -/
def HullStep (P Q : Polytope) : Prop :=
  Q.name = P.name ∧ ConvexHull P.vertices = .ok Q.vertices

/-- Concrete matrix-exponential stand-in used by the witnesses: the scipy
primitive evaluated where its output is exactly the identity (its value on
the zero matrix). -/
def wMatExp : Mat2 → Mat2 := fun _ => Mat2.idM

/-- Concrete non-degenerate initial region used by the witnesses. -/
def wTri : List Pt := [(0, 0), (4, 0), (0, 4)]

/-- Concrete non-degenerate bloating region used by the witnesses. -/
def wBloat : List Pt := [(0, 0), (1, 0), (0, 1)]

/-- Concrete collinear region: the degenerate input named by the spec. -/
def wColl : List Pt := [(0, 0), (1, 0), (2, 0)]

/-- A second concrete collinear region. -/
def wColl2 : List Pt := [(0, 0), (1, 0), (3, 0)]

/-- Lexicographic comparison of points by a linear functional given by the
vector w, then by first coordinate, then by second: an order whose greatest
elements of a set are extreme points of its convex hull. -/
def LexLe (w v m : Pt) : Prop :=
  dotp w v < dotp w m ∨ (dotp w v = dotp w m ∧
    (v.1 < m.1 ∨ (v.1 = m.1 ∧ v.2 ≤ m.2)))

/-- The hull primitive fails exactly on degenerate input, and its only
error value is the degenerate-geometry error. -/
theorem ConvexHull_eq_error_iff {S : List Pt} {e : GeomError} :
    ConvexHull S = .error e ↔ degenerateB S = true ∧ e = .degenerateGeometry := by
  unfold ConvexHull
  split
  · rename_i hdeg
    constructor
    · intro h; injection h with h; exact ⟨hdeg, h.symm⟩
    · rintro ⟨-, rfl⟩; rfl
  · rename_i hdeg
    constructor
    · intro h; cases h
    · rintro ⟨hd, -⟩; exact absurd hd hdeg

/-- Successful hull reduction keeps exactly the non-redundant points. -/
theorem ConvexHull_eq_ok_iff {S vs : List Pt} :
    ConvexHull S = .ok vs ↔
      degenerateB S = false ∧ vs = S.dedup.filter fun p => !redundantB p S := by
  unfold ConvexHull
  split
  · rename_i hdeg
    constructor
    · intro h; cases h
    · rintro ⟨hd, -⟩; rw [hdeg] at hd; cases hd
  · rename_i hdeg
    simp only [Bool.not_eq_true] at hdeg
    constructor
    · intro h; injection h with h; exact ⟨hdeg, h.symm⟩
    · rintro ⟨-, rfl⟩; rfl

/-- Hull reduction only selects among its input points. -/
theorem ConvexHull_mem_of_ok {S vs : List Pt} (h : ConvexHull S = .ok vs) :
    ∀ v ∈ vs, v ∈ S := by
  rcases ConvexHull_eq_ok_iff.1 h with ⟨-, rfl⟩
  intro v hv
  exact List.mem_dedup.1 (List.mem_of_mem_filter hv)

/-- The hull-reduction loop succeeds exactly when every record's hull
reduction succeeds, pairing records in order. -/
theorem hullEach_eq_ok_iff : ∀ {l l' : List Polytope},
    hullEach l = .ok l' ↔ List.Forall₂ HullStep l l'
  | [], l' => by
    simp [hullEach, List.forall₂_nil_left_iff, eq_comm]
  | P :: rest, l' => by
    rw [List.forall₂_cons_left_iff]
    show (match ConvexHull P.vertices with
      | .error e => .error e
      | .ok vs =>
        match hullEach rest with
        | .error e => .error e
        | .ok rest2 => .ok (⟨P.name, vs⟩ :: rest2)) = Except.ok l' ↔ _
    rcases hC : ConvexHull P.vertices with e | vs
    · constructor
      · intro h; cases h
      · rintro ⟨b, u', ⟨hname, hok⟩, -, rfl⟩
        rw [hC] at hok; cases hok
    · rcases hR : hullEach rest with e2 | rest2
      · constructor
        · intro h; cases h
        · rintro ⟨b, u', hPb, hrest, rfl⟩
          have h2 : hullEach rest = .ok u' := hullEach_eq_ok_iff.2 hrest
          rw [hR] at h2; cases h2
      · constructor
        · intro h
          injection h with h
          exact ⟨⟨P.name, vs⟩, rest2, ⟨rfl, hC⟩,
            (hullEach_eq_ok_iff).1 hR, h.symm⟩
        · rintro ⟨b, u', ⟨hname, hok⟩, hrest, rfl⟩
          have h2 := (hullEach_eq_ok_iff).2 hrest
          rw [hR] at h2
          injection h2 with h2
          rw [hC] at hok
          injection hok with hok
          cases b
          simp_all

/-- The hull-reduction loop fails exactly when some record's point set is
degenerate, always with the degenerate-geometry error. -/
theorem hullEach_eq_error_iff : ∀ {l : List Polytope} {e : GeomError},
    hullEach l = .error e ↔
      e = .degenerateGeometry ∧ ∃ P ∈ l, degenerateB P.vertices = true
  | [], e => by simp [hullEach]
  | P :: rest, e => by
    show (match ConvexHull P.vertices with
      | .error e => .error e
      | .ok vs =>
        match hullEach rest with
        | .error e => .error e
        | .ok rest2 => .ok (⟨P.name, vs⟩ :: rest2)) = Except.error e ↔ _
    rcases hC : ConvexHull P.vertices with e1 | vs
    · rcases ConvexHull_eq_error_iff.1 hC with ⟨hdeg, rfl⟩
      simp only [Except.error.injEq]
      constructor
      · rintro rfl
        exact ⟨rfl, P, List.mem_cons_self .., hdeg⟩
      · rintro ⟨rfl, -⟩; rfl
    · have hCdeg : degenerateB P.vertices = false := (ConvexHull_eq_ok_iff.1 hC).1
      rcases hR : hullEach rest with e2 | rest2
      · rcases hullEach_eq_error_iff.1 hR with ⟨rfl, Q, hQ, hQdeg⟩
        simp only [Except.error.injEq]
        constructor
        · rintro rfl
          exact ⟨rfl, Q, List.mem_cons_of_mem _ hQ, hQdeg⟩
        · rintro ⟨rfl, -⟩; rfl
      · constructor
        · intro h; cases h
        · rintro ⟨rfl, Q, hQ, hQdeg⟩
          rcases List.mem_cons.1 hQ with rfl | hQ
          · rw [hQdeg] at hCdeg; cases hCdeg
          · have h2 : hullEach rest = .error .degenerateGeometry :=
              hullEach_eq_error_iff.2 ⟨rfl, Q, hQ, hQdeg⟩
            rw [hR] at h2; cases h2

/-- Paired records keep their names. -/
theorem hullEach_map_name {l l' : List Polytope} (h : hullEach l = .ok l') :
    l'.map Polytope.name = l.map Polytope.name := by
  have h2 := hullEach_eq_ok_iff.1 h
  clear h
  induction h2 with
  | nil => rfl
  | cons hPQ htail ih => simp [hPQ.1, ih]

/-- Unfolding of a data-returning call of approx. -/
theorem approx_eq_ok_some_iff {matExp i flow b s ps} :
    approx matExp i flow b s false = .ok (some ps) ↔
      hullEach (prePolytopes matExp i flow b s) = .ok ps := by
  unfold approx
  rcases h : hullEach (prePolytopes matExp i flow b s) with e | l <;> simp

/-- Unfolding of a failing call of approx, for any rendering flag. -/
theorem approx_eq_error_iff {matExp i flow b s plot e} :
    approx matExp i flow b s plot = .error e ↔
      hullEach (prePolytopes matExp i flow b s) = .error e := by
  unfold approx
  rcases h : hullEach (prePolytopes matExp i flow b s) with e1 | l <;> simp

/-- Length of the Minkowski-sum enumeration: the full Cartesian product. -/
theorem minkSum_length : ∀ fl bl : List Pt,
    (minkSum fl bl).length = fl.length * bl.length
  | [], bl => by simp [minkSum]
  | v :: fl, bl => by
    have ih := minkSum_length fl bl
    simp only [minkSum, List.flatMap_cons, List.length_append, List.length_map,
      List.length_cons] at ih ⊢
    rw [ih]
    ring

/-- Shape of a successful data-returning call: the three fixed records, hull
reduced, followed by the Bloating record exactly when bloating is non-empty. -/
theorem approx_shape {matExp : Mat2 → Mat2} {i : List Pt} {flow : Mat2}
    {b : List Pt} {s : ℚ} {ps : List Polytope}
    (h : approx matExp i flow b s false = .ok (some ps)) :
    ∃ v0 v1 v2 tail,
      ConvexHull i = .ok v0 ∧
      ConvexHull (flowpipeOf matExp i flow s) = .ok v1 ∧
      ConvexHull ((if b.isEmpty then flowpipeOf matExp i flow s
        else minkSum (flowpipeOf matExp i flow s) b) ++ i) = .ok v2 ∧
      (if b.isEmpty then tail = ([] : List Polytope)
       else ∃ v3, ConvexHull b = .ok v3 ∧ tail = [⟨"Bloating", v3⟩]) ∧
      ps = ⟨"Initial Valuation I", v0⟩ :: ⟨"mat_exp(flow) * I", v1⟩ ::
        ⟨"Omega_1: convHull(mink_sum(mat_exp(flow) * I, bloat), I)", v2⟩ :: tail := by
  have h2 := hullEach_eq_ok_iff.1 (approx_eq_ok_some_iff.1 h)
  cases hb : b.isEmpty
  · rw [show prePolytopes matExp i flow b s =
        ⟨"Initial Valuation I", i⟩ :: ⟨"mat_exp(flow) * I", flowpipeOf matExp i flow s⟩ ::
        ⟨"Omega_1: convHull(mink_sum(mat_exp(flow) * I, bloat), I)",
          minkSum (flowpipeOf matExp i flow s) b ++ i⟩ ::
        [⟨"Bloating", b⟩] from by
      simp [prePolytopes, hb]] at h2
    rw [List.forall₂_cons_left_iff] at h2
    rcases h2 with ⟨Q0, u0, ⟨hn0, hh0⟩, h2, rfl⟩
    rw [List.forall₂_cons_left_iff] at h2
    rcases h2 with ⟨Q1, u1, ⟨hn1, hh1⟩, h2, rfl⟩
    rw [List.forall₂_cons_left_iff] at h2
    rcases h2 with ⟨Q2, u2, ⟨hn2, hh2⟩, h2, rfl⟩
    rw [List.forall₂_cons_left_iff] at h2
    rcases h2 with ⟨Q3, u3, ⟨hn3, hh3⟩, h2, rfl⟩
    rw [List.forall₂_nil_left_iff] at h2
    subst h2
    refine ⟨Q0.vertices, Q1.vertices, Q2.vertices, [⟨"Bloating", Q3.vertices⟩],
      hh0, hh1, by simpa using hh2,
      by simp only [Bool.false_eq_true, if_false]; exact ⟨Q3.vertices, hh3, by simp⟩, ?_⟩
    cases Q0; cases Q1; cases Q2; cases Q3
    simp_all
  · rw [show prePolytopes matExp i flow b s =
        ⟨"Initial Valuation I", i⟩ :: ⟨"mat_exp(flow) * I", flowpipeOf matExp i flow s⟩ ::
        [⟨"Omega_1: convHull(mink_sum(mat_exp(flow) * I, bloat), I)",
          flowpipeOf matExp i flow s ++ i⟩] from by
      simp [prePolytopes, hb]] at h2
    rw [List.forall₂_cons_left_iff] at h2
    rcases h2 with ⟨Q0, u0, ⟨hn0, hh0⟩, h2, rfl⟩
    rw [List.forall₂_cons_left_iff] at h2
    rcases h2 with ⟨Q1, u1, ⟨hn1, hh1⟩, h2, rfl⟩
    rw [List.forall₂_cons_left_iff] at h2
    rcases h2 with ⟨Q2, u2, ⟨hn2, hh2⟩, h2, rfl⟩
    rw [List.forall₂_nil_left_iff] at h2
    subst h2
    refine ⟨Q0.vertices, Q1.vertices, Q2.vertices, [],
      hh0, hh1, by simpa using hh2, by simp, ?_⟩
    cases Q0; cases Q1; cases Q2
    simp_all

/-- Scaling the zero flow matrix by any step size yields the zero matrix. -/
theorem smulM_zeroM (s : ℚ) : smulM s Mat2.zeroM = Mat2.zeroM := by
  simp [smulM, Mat2.zeroM]

/-- The identity matrix acts as the identity map on points. -/
theorem mulVec_idM (v : Pt) : mulVec Mat2.idM v = v := by
  cases v; simp [mulVec, Mat2.idM]

/-- Dot product of two scalar multiples. -/
theorem dotp_smul_smul (a b : ℚ) (u w : Pt) :
    dotp (a • u) (b • w) = a * b * dotp u w := by
  obtain ⟨u1, u2⟩ := u
  obtain ⟨w1, w2⟩ := w
  simp only [dotp, Prod.smul_mk, smul_eq_mul]
  ring

/-- The dot product of a vector with itself is nonnegative. -/
theorem dotp_self_nonneg (u : Pt) : 0 ≤ dotp u u := by
  obtain ⟨u1, u2⟩ := u
  simp only [dotp]
  nlinarith [sq_nonneg u1, sq_nonneg u2]

/-- The dot product of a nonzero vector with itself is positive. -/
theorem dotp_self_pos {u : Pt} (hu : u ≠ 0) : 0 < dotp u u := by
  obtain ⟨u1, u2⟩ := u
  simp only [Ne, Prod.mk_eq_zero, not_and_or] at hu
  simp only [dotp]
  rcases hu with h | h
  · linarith [mul_self_pos.2 h, mul_self_nonneg u2]
  · linarith [mul_self_pos.2 h, mul_self_nonneg u1]

/-- A vector whose self dot product vanishes is zero. -/
theorem eq_zero_of_dotp_self_nonpos {u : Pt} (h : dotp u u ≤ 0) : u = 0 := by
  by_contra hu
  exact absurd h (not_le.2 (dotp_self_pos hu))

/-- The cross product of a vector with itself vanishes. -/
theorem cross_self (u : Pt) : cross u u = 0 := by
  obtain ⟨u1, u2⟩ := u
  simp only [cross]
  ring

/-- Cross product with a scalar multiple on the right. -/
theorem cross_smul_right (t : ℚ) (u v : Pt) :
    cross u (t • v) = t * cross u v := by
  obtain ⟨u1, u2⟩ := u
  obtain ⟨v1, v2⟩ := v
  simp only [cross, Prod.smul_mk, smul_eq_mul]
  ring

/-- A vector with zero cross product against a nonzero vector is a scalar
multiple of it. -/
theorem eq_smul_of_cross_eq_zero {u v : Pt} (hu : u ≠ 0)
    (h : cross u v = 0) : v = (dotp v u / dotp u u) • u := by
  have huu : dotp u u ≠ 0 := ne_of_gt (dotp_self_pos hu)
  obtain ⟨u1, u2⟩ := u
  obtain ⟨v1, v2⟩ := v
  simp only [cross] at h
  simp only [dotp] at huu ⊢
  rw [Prod.ext_iff]
  simp only [Prod.smul_mk, smul_eq_mul]
  constructor
  · field_simp
    linear_combination (-u2) * h
  · field_simp
    linear_combination u1 * h

/-- Unfolded form of the decidable segment test. -/
theorem inSegB_eq_true_iff {p x y : Pt} :
    inSegB p x y = true ↔ cross (y - x) (p - x) = 0 ∧ dotp (x - p) (y - p) ≤ 0 := by
  simp [inSegB]

/-- The decidable segment test decides membership in the closed segment. -/
theorem inSegB_iff_mem_segment {p x y : Pt} :
    inSegB p x y = true ↔ p ∈ segment ℚ x y := by
  rw [inSegB_eq_true_iff]
  constructor
  · rintro ⟨hcross, hdot⟩
    by_cases hxy : y = x
    · have hxp : x - p = 0 := by
        apply eq_zero_of_dotp_self_nonpos
        calc dotp (x - p) (x - p) = dotp (x - p) (y - p) := by rw [hxy]
        _ ≤ 0 := hdot
      have hpx : p = x := (sub_eq_zero.1 hxp).symm
      rw [hxy, segment_same]
      exact Set.mem_singleton_iff.2 hpx
    · have hu : y - x ≠ 0 := sub_ne_zero.2 hxy
      have hv := eq_smul_of_cross_eq_zero hu hcross
      set t : ℚ := dotp (p - x) (y - x) / dotp (y - x) (y - x) with ht
      have hpx : p - x = t • (y - x) := hv
      have hxp2 : x - p = (-t) • (y - x) := by
        rw [← neg_sub, hpx, neg_smul]
      have hyp2 : y - p = (1 - t) • (y - x) := by
        have h1 : y - p = (y - x) - (p - x) := by abel
        rw [h1, hpx, sub_smul, one_smul]
      have hduu : 0 < dotp (y - x) (y - x) := dotp_self_pos hu
      have hprod : -t * (1 - t) * dotp (y - x) (y - x) ≤ 0 := by
        rw [hxp2, hyp2] at hdot
        rw [← dotp_smul_smul]
        exact hdot
      have htt : 0 ≤ t * (1 - t) := by nlinarith
      have ht0 : 0 ≤ t := by nlinarith
      have ht1 : t ≤ 1 := by nlinarith
      rw [segment_eq_image']
      refine ⟨t, ⟨ht0, ht1⟩, ?_⟩
      show x + t • (y - x) = p
      rw [← hpx]
      abel
  · intro hp
    rw [segment_eq_image'] at hp
    rcases hp with ⟨t, ⟨ht0, ht1⟩, rfl⟩
    have h1 : x + t • (y - x) - x = t • (y - x) := by abel
    have h2 : x - (x + t • (y - x)) = (-t) • (y - x) := by
      rw [neg_smul]
      abel
    have h3 : y - (x + t • (y - x)) = (1 - t) • (y - x) := by
      rw [sub_smul, one_smul]
      abel
    refine ⟨?_, ?_⟩
    · rw [h1, cross_smul_right, cross_self, mul_zero]
    · rw [h2, h3, dotp_smul_smul]
      have := mul_nonneg (mul_nonneg ht0 (by linarith : (0:ℚ) ≤ 1 - t))
        (dotp_self_nonneg (y - x))
      nlinarith

/-- Membership in the convex hull of three points via explicit convex
weights. -/
theorem mem_triple_iff {p x y z : Pt} :
    p ∈ convexHull ℚ {x, y, z} ↔
      ∃ a b c : ℚ, 0 ≤ a ∧ 0 ≤ b ∧ 0 ≤ c ∧ a + b + c = 1 ∧
        a • x + b • y + c • z = p := by
  constructor
  · intro hp
    rw [show ({x, y, z} : Set Pt) = insert x {y, z} from rfl,
      convexHull_insert ⟨y, by simp⟩, mem_convexJoin] at hp
    rcases hp with ⟨x', hx', w, hw, hpw⟩
    rw [Set.mem_singleton_iff] at hx'
    subst hx'
    rw [convexHull_pair] at hw
    rcases hw with ⟨g, k, hg, hk, hgk, rfl⟩
    rcases hpw with ⟨u, v, hu, hv, huv, rfl⟩
    refine ⟨u, v * g, v * k, hu, mul_nonneg hv hg, mul_nonneg hv hk, ?_, ?_⟩
    · have hvgk : v * g + v * k = v := by rw [← mul_add, hgk, mul_one]
      linarith
    · rw [smul_add, smul_smul, smul_smul, add_assoc]
  · rintro ⟨a, b, c, ha, hb, hc, hsum, rfl⟩
    by_cases hbc : b + c = 0
    · have hb0 : b = 0 := le_antisymm (by linarith) hb
      have hc0 : c = 0 := le_antisymm (by linarith) hc
      have ha1 : a = 1 := by linarith
      rw [ha1, hb0, hc0, one_smul, zero_smul, zero_smul, add_zero, add_zero]
      exact subset_convexHull ℚ _ (by simp)
    · have hbc' : 0 < b + c := lt_of_le_of_ne (by linarith) (Ne.symm hbc)
      have hw : (b / (b + c)) • y + (c / (b + c)) • z ∈
          convexHull ℚ ({x, y, z} : Set Pt) := by
        have hseg : (b / (b + c)) • y + (c / (b + c)) • z ∈ segment ℚ y z :=
          ⟨b / (b + c), c / (b + c), div_nonneg hb hbc'.le,
            div_nonneg hc hbc'.le, by field_simp, rfl⟩
        have hsub : segment ℚ y z ⊆ convexHull ℚ ({x, y, z} : Set Pt) := by
          rw [← convexHull_pair]
          refine convexHull_mono ?_
          intro q hq
          rcases hq with rfl | rfl
          · simp
          · simp
        exact hsub hseg
      have hx : x ∈ convexHull ℚ ({x, y, z} : Set Pt) :=
        subset_convexHull ℚ _ (by simp)
      have hmem : a • x + (b + c) • ((b / (b + c)) • y + (c / (b + c)) • z) ∈
          convexHull ℚ ({x, y, z} : Set Pt) :=
        (convex_convexHull ℚ _).segment_subset hx hw
          ⟨a, b + c, ha, hbc'.le, by linarith, rfl⟩
      have heq : a • x + (b + c) • ((b / (b + c)) • y + (c / (b + c)) • z) =
          a • x + b • y + c • z := by
        rw [smul_add, smul_smul, smul_smul]
        have h1 : (b + c) * (b / (b + c)) = b := by field_simp
        have h2 : (b + c) * (c / (b + c)) = c := by field_simp
        rw [h1, h2, add_assoc]
      rw [heq] at hmem
      exact hmem

/-- The three sub-triangle orientation values sum to the full orientation. -/
theorem cross_sum_identity (p x y z : Pt) :
    cross (y - x) (p - x) + cross (z - y) (p - y) + cross (x - z) (p - z) =
      cross (y - x) (z - x) := by
  obtain ⟨p1, p2⟩ := p
  obtain ⟨x1, x2⟩ := x
  obtain ⟨y1, y2⟩ := y
  obtain ⟨z1, z2⟩ := z
  simp only [cross, Prod.mk_sub_mk]
  ring

/-- Orientation values of a convex combination: each barycentric orientation
value is the matching weight times the full orientation. -/
theorem cross_combo {p x y z : Pt} {a b c : ℚ} (hsum : a + b + c = 1)
    (hp : a • x + b • y + c • z = p) :
    cross (y - x) (p - x) = c * cross (y - x) (z - x) ∧
    cross (z - y) (p - y) = a * cross (y - x) (z - x) ∧
    cross (x - z) (p - z) = b * cross (y - x) (z - x) := by
  have ha' : a = 1 - b - c := by linarith
  subst ha'
  obtain ⟨p1, p2⟩ := p
  obtain ⟨x1, x2⟩ := x
  obtain ⟨y1, y2⟩ := y
  obtain ⟨z1, z2⟩ := z
  simp only [Prod.smul_mk, smul_eq_mul, Prod.mk_add_mk, Prod.mk.injEq] at hp
  obtain ⟨hp1, hp2⟩ := hp
  simp only [cross, Prod.mk_sub_mk]
  refine ⟨?_, ?_, ?_⟩
  · linear_combination (y2 - x2) * hp1 - (y1 - x1) * hp2
  · linear_combination (z2 - y2) * hp1 - (z1 - y1) * hp2
  · linear_combination (x2 - z2) * hp1 - (x1 - z1) * hp2

/-- A convex combination of three collinear points lies on one of the three
closed segments between them. -/
theorem collinear_combo_mem_segment {x y z p : Pt}
    (hD : cross (y - x) (z - x) = 0) {a b c : ℚ}
    (ha : 0 ≤ a) (hb : 0 ≤ b) (hc : 0 ≤ c) (hsum : a + b + c = 1)
    (hp : a • x + b • y + c • z = p) :
    p ∈ segment ℚ x y ∨ p ∈ segment ℚ y z ∨ p ∈ segment ℚ x z := by
  by_cases hxy : y = x
  · right; right
    rw [hxy] at hp
    refine ⟨a + b, c, by linarith, hc, by linarith, ?_⟩
    rw [add_smul]
    exact hp
  · have hu : y - x ≠ 0 := sub_ne_zero.2 hxy
    have hz := eq_smul_of_cross_eq_zero hu hD
    set t : ℚ := dotp (z - x) (y - x) / dotp (y - x) (y - x) with htdef
    have hpx : p - x = (b + c * t) • (y - x) := by
      have hrel : p - x = b • (y - x) + c • (z - x) := by
        rw [← hp]
        have ha' : a = 1 - b - c := by linarith
        subst ha'
        obtain ⟨x1, x2⟩ := x
        obtain ⟨y1, y2⟩ := y
        obtain ⟨z1, z2⟩ := z
        simp only [Prod.smul_mk, smul_eq_mul, Prod.mk_add_mk, Prod.mk_sub_mk,
          Prod.mk.injEq]
        constructor <;> ring
      rw [hrel, hz, smul_smul, ← add_smul]
    set s : ℚ := b + c * t with hsdef
    rcases le_or_lt t 1 with ht1 | ht1
    · rcases le_or_lt 0 t with ht0 | ht0
      · left
        rw [segment_eq_image']
        refine ⟨s, ⟨by nlinarith, by nlinarith⟩, ?_⟩
        show x + s • (y - x) = p
        rw [← hpx]
        abel
      · right; left
        rw [segment_eq_image']
        have ht1' : (1 : ℚ) - t > 0 := by linarith
        refine ⟨(1 - s) / (1 - t), ⟨div_nonneg (by nlinarith) ht1'.le, ?_⟩, ?_⟩
        · rw [div_le_one ht1']
          nlinarith
        · show y + ((1 - s) / (1 - t)) • (z - y) = p
          have hzy : z - y = (t - 1) • (y - x) := by
            rw [sub_smul, one_smul, ← hz]
            abel
          have hpy : p - y = (s - 1) • (y - x) := by
            rw [sub_smul, one_smul, ← hpx]
            abel
          have hcalc : (1 - s) / (1 - t) * (t - 1) = s - 1 := by
            field_simp
            ring
          rw [hzy, smul_smul, hcalc, ← hpy]
          abel
    · right; right
      rw [segment_eq_image']
      have ht0 : (0 : ℚ) < t := by linarith
      refine ⟨s / t, ⟨div_nonneg (by nlinarith) ht0.le, ?_⟩, ?_⟩
      · rw [div_le_one ht0]
        nlinarith
      · show x + (s / t) • (z - x) = p
        rw [hz, smul_smul, div_mul_cancel₀ _ (ne_of_gt ht0), ← hpx]
        abel

/-- The decidable triangle test decides membership in the convex hull of
the three corners, degenerate triangles included. -/
theorem inTriB_iff_mem_triple {p x y z : Pt} :
    inTriB p x y z = true ↔ p ∈ convexHull ℚ {x, y, z} := by
  unfold inTriB
  by_cases hD : cross (y - x) (z - x) = 0
  · rw [if_pos hD]
    simp only [Bool.or_eq_true]
    constructor
    · rintro ((h | h) | h)
      · have hm := inSegB_iff_mem_segment.1 h
        rw [← convexHull_pair] at hm
        refine convexHull_mono ?_ hm
        intro q hq
        rcases hq with rfl | rfl <;> simp
      · have hm := inSegB_iff_mem_segment.1 h
        rw [← convexHull_pair] at hm
        refine convexHull_mono ?_ hm
        intro q hq
        rcases hq with rfl | rfl <;> simp
      · have hm := inSegB_iff_mem_segment.1 h
        rw [← convexHull_pair] at hm
        refine convexHull_mono ?_ hm
        intro q hq
        rcases hq with rfl | rfl <;> simp
    · intro hp
      rcases mem_triple_iff.1 hp with ⟨a, b, c, ha, hb, hc, hsum, hcomb⟩
      rcases collinear_combo_mem_segment hD ha hb hc hsum hcomb with h | h | h
      · exact Or.inl (Or.inl (inSegB_iff_mem_segment.2 h))
      · exact Or.inl (Or.inr (inSegB_iff_mem_segment.2 h))
      · exact Or.inr (inSegB_iff_mem_segment.2 h)
  · rw [if_neg hD]
    constructor
    · intro htest
      simp only [Bool.or_eq_true, Bool.and_eq_true, decide_eq_true_eq] at htest
      have hsum3 := cross_sum_identity p x y z
      rcases htest with ⟨⟨h1, h2⟩, h3⟩ | ⟨⟨h1, h2⟩, h3⟩
      · have hDpos : 0 < cross (y - x) (z - x) :=
          lt_of_le_of_ne (by linarith) (Ne.symm hD)
        refine mem_triple_iff.2 ⟨cross (z - y) (p - y) / cross (y - x) (z - x),
          cross (x - z) (p - z) / cross (y - x) (z - x),
          cross (y - x) (p - x) / cross (y - x) (z - x),
          div_nonneg h2 hDpos.le, div_nonneg h3 hDpos.le, div_nonneg h1 hDpos.le,
          ?_, ?_⟩
        · field_simp
          linarith
        · obtain ⟨p1, p2⟩ := p
          obtain ⟨x1, x2⟩ := x
          obtain ⟨y1, y2⟩ := y
          obtain ⟨z1, z2⟩ := z
          simp only [cross, Prod.mk_sub_mk] at hD ⊢
          rw [Prod.ext_iff]
          simp only [Prod.smul_mk, smul_eq_mul, Prod.mk_add_mk]
          constructor
          · field_simp
            ring
          · field_simp
            ring
      · have hDneg : cross (y - x) (z - x) < 0 := lt_of_le_of_ne (by linarith) hD
        refine mem_triple_iff.2 ⟨cross (z - y) (p - y) / cross (y - x) (z - x),
          cross (x - z) (p - z) / cross (y - x) (z - x),
          cross (y - x) (p - x) / cross (y - x) (z - x),
          div_nonneg_iff.2 (Or.inr ⟨h2, hDneg.le⟩),
          div_nonneg_iff.2 (Or.inr ⟨h3, hDneg.le⟩),
          div_nonneg_iff.2 (Or.inr ⟨h1, hDneg.le⟩),
          ?_, ?_⟩
        · field_simp
          linarith
        · obtain ⟨p1, p2⟩ := p
          obtain ⟨x1, x2⟩ := x
          obtain ⟨y1, y2⟩ := y
          obtain ⟨z1, z2⟩ := z
          simp only [cross, Prod.mk_sub_mk] at hD ⊢
          rw [Prod.ext_iff]
          simp only [Prod.smul_mk, smul_eq_mul, Prod.mk_add_mk]
          constructor
          · field_simp
            ring
          · field_simp
            ring
    · intro hp
      rcases mem_triple_iff.1 hp with ⟨a, b, c, ha, hb, hc, hsum, hcomb⟩
      obtain ⟨hd1, hd2, hd3⟩ := cross_combo hsum hcomb
      simp only [Bool.or_eq_true, Bool.and_eq_true, decide_eq_true_eq]
      rcases lt_trichotomy (cross (y - x) (z - x)) 0 with hDlt | hD0 | hDgt
      · right
        refine ⟨⟨?_, ?_⟩, ?_⟩
        · rw [hd1]
          nlinarith
        · rw [hd2]
          nlinarith
        · rw [hd3]
          nlinarith
      · exact absurd hD0 hD
      · left
        refine ⟨⟨?_, ?_⟩, ?_⟩
        · rw [hd1]
          exact mul_nonneg hc hDgt.le
        · rw [hd2]
          exact mul_nonneg ha hDgt.le
        · rw [hd3]
          exact mul_nonneg hb hDgt.le

/-- In the plane, membership in the convex hull of a finite point set
reduces to membership in the hull of at most three of its points
(Caratheodory). -/
theorem mem_convexHull_finset_imp_triple {V : Finset Pt} {p : Pt}
    (h : p ∈ convexHull ℚ (V : Set Pt)) :
    ∃ x ∈ V, ∃ y ∈ V, ∃ z ∈ V, p ∈ convexHull ℚ {x, y, z} := by
  rw [convexHull_eq_union] at h
  simp only [Set.mem_iUnion] at h
  rcases h with ⟨t, hsub, hai, hp⟩
  have htne : t.Nonempty := by
    rcases t.eq_empty_or_nonempty with rfl | hne
    · rw [Finset.coe_empty, convexHull_empty] at hp
      exact absurd hp (Set.not_mem_empty p)
    · exact hne
  have hrank : Module.finrank ℚ (ℚ × ℚ) = 2 := by
    rw [Module.finrank_prod, Module.finrank_self]
  have hcard : t.card ≤ 3 := by
    calc t.card = Fintype.card t := (Fintype.card_coe t).symm
      _ ≤ Module.finrank ℚ (vectorSpan ℚ (Set.range ((↑) : t → Pt))) + 1 :=
        hai.card_le_finrank_succ
      _ ≤ Module.finrank ℚ (ℚ × ℚ) + 1 :=
        Nat.add_le_add_right (Submodule.finrank_le _) 1
      _ = 3 := by rw [hrank]
  have hcard1 : 1 ≤ t.card := Finset.card_pos.2 htne
  have hc123 : t.card = 1 ∨ t.card = 2 ∨ t.card = 3 := by omega
  rcases hc123 with hc | hc | hc
  · rcases Finset.card_eq_one.1 hc with ⟨x, rfl⟩
    have hx : x ∈ V := by
      have := hsub (by simp : x ∈ (({x} : Finset Pt) : Set Pt))
      simpa using this
    refine ⟨x, hx, x, hx, x, hx, ?_⟩
    have hset : ({x, x, x} : Set Pt) = (({x} : Finset Pt) : Set Pt) := by simp
    rw [hset]
    exact hp
  · rcases Finset.card_eq_two.1 hc with ⟨x, y, hxy, rfl⟩
    have hx : x ∈ V := by
      have := hsub (by simp : x ∈ (({x, y} : Finset Pt) : Set Pt))
      simpa using this
    have hy : y ∈ V := by
      have := hsub (by simp : y ∈ (({x, y} : Finset Pt) : Set Pt))
      simpa using this
    refine ⟨x, hx, y, hy, y, hy, ?_⟩
    have hset : ({x, y, y} : Set Pt) = (({x, y} : Finset Pt) : Set Pt) := by
      ext q
      simp
    rw [hset]
    exact hp
  · rcases Finset.card_eq_three.1 hc with ⟨x, y, z, _, _, _, rfl⟩
    have hx : x ∈ V := by
      have := hsub (by simp : x ∈ (({x, y, z} : Finset Pt) : Set Pt))
      simpa using this
    have hy : y ∈ V := by
      have := hsub (by simp : y ∈ (({x, y, z} : Finset Pt) : Set Pt))
      simpa using this
    have hz : z ∈ V := by
      have := hsub (by simp : z ∈ (({x, y, z} : Finset Pt) : Set Pt))
      simpa using this
    refine ⟨x, hx, y, hy, z, hz, ?_⟩
    have hset : ({x, y, z} : Set Pt) = (({x, y, z} : Finset Pt) : Set Pt) := by
      simp
    rw [hset]
    exact hp

/-- The decidable redundancy test decides membership in the convex hull of
the other points of the set: a point is dropped by hull reduction exactly
when it is a convex combination of other input points. -/
theorem redundantB_iff {p : Pt} {S : List Pt} :
    redundantB p S = true ↔ p ∈ convexHull ℚ {q | q ∈ S ∧ q ≠ p} := by
  constructor
  · intro h
    simp only [redundantB, List.any_eq_true] at h
    rcases h with ⟨x, hx, y, hy, z, hz, htri⟩
    rw [List.mem_filter] at hx hy hz
    have hx2 : x ∈ S ∧ x ≠ p :=
      ⟨List.mem_dedup.1 hx.1, of_decide_eq_true hx.2⟩
    have hy2 : y ∈ S ∧ y ≠ p :=
      ⟨List.mem_dedup.1 hy.1, of_decide_eq_true hy.2⟩
    have hz2 : z ∈ S ∧ z ≠ p :=
      ⟨List.mem_dedup.1 hz.1, of_decide_eq_true hz.2⟩
    have hm := inTriB_iff_mem_triple.1 htri
    refine convexHull_mono ?_ hm
    intro q hq
    rcases hq with rfl | rfl | rfl
    · exact hx2
    · exact hy2
    · exact hz2
  · intro hp
    have hset : {q | q ∈ S ∧ q ≠ p} = ((S.toFinset.erase p : Finset Pt) : Set Pt) := by
      ext q
      simp only [Set.mem_setOf_eq, Finset.coe_erase, Set.mem_diff,
        Finset.mem_coe, List.mem_toFinset, Set.mem_singleton_iff]
    rw [hset] at hp
    rcases mem_convexHull_finset_imp_triple hp with ⟨x, hx, y, hy, z, hz, hm⟩
    rw [Finset.mem_erase, List.mem_toFinset] at hx hy hz
    simp only [redundantB, List.any_eq_true]
    refine ⟨x, ?_, y, ?_, z, ?_, inTriB_iff_mem_triple.2 hm⟩
    · exact List.mem_filter.2 ⟨List.mem_dedup.2 hx.2, decide_eq_true hx.1⟩
    · exact List.mem_filter.2 ⟨List.mem_dedup.2 hy.2, decide_eq_true hy.1⟩
    · exact List.mem_filter.2 ⟨List.mem_dedup.2 hz.2, decide_eq_true hz.1⟩

/-- LexLe is reflexive. -/
theorem lexLe_refl (w v : Pt) : LexLe w v v :=
  Or.inr ⟨rfl, Or.inr ⟨rfl, le_refl _⟩⟩

/-- LexLe is total. -/
theorem lexLe_total (w v m : Pt) : LexLe w v m ∨ LexLe w m v := by
  unfold LexLe
  rcases lt_trichotomy (dotp w v) (dotp w m) with h | h | h
  · exact Or.inl (Or.inl h)
  · rcases lt_trichotomy v.1 m.1 with h1 | h1 | h1
    · exact Or.inl (Or.inr ⟨h, Or.inl h1⟩)
    · rcases le_total v.2 m.2 with h2 | h2
      · exact Or.inl (Or.inr ⟨h, Or.inr ⟨h1, h2⟩⟩)
      · exact Or.inr (Or.inr ⟨h.symm, Or.inr ⟨h1.symm, h2⟩⟩)
    · exact Or.inr (Or.inr ⟨h.symm, Or.inl h1⟩)
  · exact Or.inr (Or.inl h)

/-- LexLe is transitive. -/
theorem lexLe_trans {w a b c : Pt} (h1 : LexLe w a b) (h2 : LexLe w b c) :
    LexLe w a c := by
  unfold LexLe at h1 h2 ⊢
  rcases h1 with h1 | ⟨he1, h1⟩ <;> rcases h2 with h2 | ⟨he2, h2⟩
  · exact Or.inl (lt_trans h1 h2)
  · exact Or.inl (he2 ▸ h1)
  · exact Or.inl (he1 ▸ h2)
  · refine Or.inr ⟨he1.trans he2, ?_⟩
    rcases h1 with h1 | ⟨hx1, hy1⟩ <;> rcases h2 with h2 | ⟨hx2, hy2⟩
    · exact Or.inl (lt_trans h1 h2)
    · exact Or.inl (hx2 ▸ h1)
    · exact Or.inl (hx1 ▸ h2)
    · exact Or.inr ⟨hx1.trans hx2, le_trans hy1 hy2⟩

/-- Every nonempty list of points has a LexLe-greatest element. -/
theorem exists_lexLe_max (w : Pt) : ∀ S : List Pt, S ≠ [] →
    ∃ m ∈ S, ∀ v ∈ S, LexLe w v m
  | [], h => absurd rfl h
  | [v], _ => ⟨v, by simp, by
      intro u hu
      rw [List.mem_singleton] at hu
      subst hu
      exact lexLe_refl w u⟩
  | v :: v2 :: rest, _ => by
    rcases exists_lexLe_max w (v2 :: rest) (by simp) with ⟨m, hm, hmax⟩
    rcases lexLe_total w v m with hvm | hmv
    · refine ⟨m, List.mem_cons_of_mem _ hm, ?_⟩
      intro u hu
      rcases List.mem_cons.1 hu with rfl | hu
      · exact hvm
      · exact hmax u hu
    · refine ⟨v, List.mem_cons_self .., ?_⟩
      intro u hu
      rcases List.mem_cons.1 hu with rfl | hu
      · exact lexLe_refl w u
      · exact lexLe_trans (hmax u hu) hmv

/-- Three nonnegative rationals summing to zero all vanish. -/
theorem three_nonneg_sum_zero {r s t : ℚ} (hr : 0 ≤ r) (hs : 0 ≤ s)
    (ht : 0 ≤ t) (h : r + s + t = 0) : r = 0 ∧ s = 0 ∧ t = 0 :=
  ⟨by linarith, by linarith, by linarith⟩

/-- A LexLe-greatest element of a set is not in the convex hull of any
three points of the set that all differ from it. -/
theorem lexLe_max_not_in_triple {w m x y z : Pt}
    (hx : LexLe w x m) (hy : LexLe w y m) (hz : LexLe w z m)
    (hxm : x ≠ m) (hym : y ≠ m) (hzm : z ≠ m)
    (hmem : m ∈ convexHull ℚ {x, y, z}) : False := by
  rcases mem_triple_iff.1 hmem with ⟨a, b, c, ha, hb, hc, hsum, hcomb⟩
  obtain ⟨w1, w2⟩ := w
  obtain ⟨m1, m2⟩ := m
  obtain ⟨x1, x2⟩ := x
  obtain ⟨y1, y2⟩ := y
  obtain ⟨z1, z2⟩ := z
  simp only [Prod.smul_mk, smul_eq_mul, Prod.mk_add_mk, Prod.mk.injEq] at hcomb
  obtain ⟨hp1, hp2⟩ := hcomb
  unfold LexLe at hx hy hz
  simp only [dotp] at hx hy hz
  simp only [ne_eq, Prod.mk.injEq] at hxm hym hzm
  -- level 1: the linear functional
  have l1 : a * ((w1 * m1 + w2 * m2) - (w1 * x1 + w2 * x2)) = 0 ∧
      b * ((w1 * m1 + w2 * m2) - (w1 * y1 + w2 * y2)) = 0 ∧
      c * ((w1 * m1 + w2 * m2) - (w1 * z1 + w2 * z2)) = 0 := by
    have tx : 0 ≤ a * ((w1 * m1 + w2 * m2) - (w1 * x1 + w2 * x2)) := by
      rcases hx with h | ⟨h, -⟩
      · exact mul_nonneg ha (by linarith)
      · exact mul_nonneg ha (by linarith)
    have ty : 0 ≤ b * ((w1 * m1 + w2 * m2) - (w1 * y1 + w2 * y2)) := by
      rcases hy with h | ⟨h, -⟩
      · exact mul_nonneg hb (by linarith)
      · exact mul_nonneg hb (by linarith)
    have tz : 0 ≤ c * ((w1 * m1 + w2 * m2) - (w1 * z1 + w2 * z2)) := by
      rcases hz with h | ⟨h, -⟩
      · exact mul_nonneg hc (by linarith)
      · exact mul_nonneg hc (by linarith)
    refine three_nonneg_sum_zero tx ty tz ?_
    linear_combination (w1 * m1 + w2 * m2) * hsum - w1 * hp1 - w2 * hp2
  -- each coefficient is zero, or the functional value agrees
  have fx : a = 0 ∨ w1 * x1 + w2 * x2 = w1 * m1 + w2 * m2 := by
    rcases mul_eq_zero.1 l1.1 with h | h
    · exact Or.inl h
    · exact Or.inr (by linarith)
  have fy : b = 0 ∨ w1 * y1 + w2 * y2 = w1 * m1 + w2 * m2 := by
    rcases mul_eq_zero.1 l1.2.1 with h | h
    · exact Or.inl h
    · exact Or.inr (by linarith)
  have fz : c = 0 ∨ w1 * z1 + w2 * z2 = w1 * m1 + w2 * m2 := by
    rcases mul_eq_zero.1 l1.2.2 with h | h
    · exact Or.inl h
    · exact Or.inr (by linarith)
  -- level 2: the first coordinate
  have l2 : a * (m1 - x1) = 0 ∧ b * (m1 - y1) = 0 ∧ c * (m1 - z1) = 0 := by
    have tx : 0 ≤ a * (m1 - x1) := by
      rcases fx with h | h
      · rw [h, zero_mul]
      · rcases hx with h' | ⟨-, h' | ⟨h', -⟩⟩
        · exact absurd h (ne_of_lt h')
        · exact mul_nonneg ha (by linarith)
        · exact mul_nonneg ha (by linarith)
    have ty : 0 ≤ b * (m1 - y1) := by
      rcases fy with h | h
      · rw [h, zero_mul]
      · rcases hy with h' | ⟨-, h' | ⟨h', -⟩⟩
        · exact absurd h (ne_of_lt h')
        · exact mul_nonneg hb (by linarith)
        · exact mul_nonneg hb (by linarith)
    have tz : 0 ≤ c * (m1 - z1) := by
      rcases fz with h | h
      · rw [h, zero_mul]
      · rcases hz with h' | ⟨-, h' | ⟨h', -⟩⟩
        · exact absurd h (ne_of_lt h')
        · exact mul_nonneg hc (by linarith)
        · exact mul_nonneg hc (by linarith)
    refine three_nonneg_sum_zero tx ty tz ?_
    linear_combination m1 * hsum - hp1
  have gx : a = 0 ∨ x1 = m1 := by
    rcases mul_eq_zero.1 l2.1 with h | h
    · exact Or.inl h
    · exact Or.inr (by linarith)
  have gy : b = 0 ∨ y1 = m1 := by
    rcases mul_eq_zero.1 l2.2.1 with h | h
    · exact Or.inl h
    · exact Or.inr (by linarith)
  have gz : c = 0 ∨ z1 = m1 := by
    rcases mul_eq_zero.1 l2.2.2 with h | h
    · exact Or.inl h
    · exact Or.inr (by linarith)
  -- level 3: the second coordinate
  have l3 : a * (m2 - x2) = 0 ∧ b * (m2 - y2) = 0 ∧ c * (m2 - z2) = 0 := by
    have tx : 0 ≤ a * (m2 - x2) := by
      rcases fx with h | h
      · rw [h, zero_mul]
      · rcases gx with h1 | h1
        · rw [h1, zero_mul]
        · rcases hx with h' | ⟨-, h' | ⟨-, h'⟩⟩
          · exact absurd h (ne_of_lt h')
          · exact absurd h1 (ne_of_lt h')
          · exact mul_nonneg ha (by linarith)
    have ty : 0 ≤ b * (m2 - y2) := by
      rcases fy with h | h
      · rw [h, zero_mul]
      · rcases gy with h1 | h1
        · rw [h1, zero_mul]
        · rcases hy with h' | ⟨-, h' | ⟨-, h'⟩⟩
          · exact absurd h (ne_of_lt h')
          · exact absurd h1 (ne_of_lt h')
          · exact mul_nonneg hb (by linarith)
    have tz : 0 ≤ c * (m2 - z2) := by
      rcases fz with h | h
      · rw [h, zero_mul]
      · rcases gz with h1 | h1
        · rw [h1, zero_mul]
        · rcases hz with h' | ⟨-, h' | ⟨-, h'⟩⟩
          · exact absurd h (ne_of_lt h')
          · exact absurd h1 (ne_of_lt h')
          · exact mul_nonneg hc (by linarith)
    refine three_nonneg_sum_zero tx ty tz ?_
    linear_combination m2 * hsum - hp2
  have kx : a = 0 ∨ x2 = m2 := by
    rcases mul_eq_zero.1 l3.1 with h | h
    · exact Or.inl h
    · exact Or.inr (by linarith)
  have ky : b = 0 ∨ y2 = m2 := by
    rcases mul_eq_zero.1 l3.2.1 with h | h
    · exact Or.inl h
    · exact Or.inr (by linarith)
  have kz : c = 0 ∨ z2 = m2 := by
    rcases mul_eq_zero.1 l3.2.2 with h | h
    · exact Or.inl h
    · exact Or.inr (by linarith)
  -- every coefficient vanishes, contradicting the sum being one
  have ha0 : a = 0 := by
    rcases gx with h | h
    · exact h
    · rcases kx with h2 | h2
      · exact h2
      · exact absurd ⟨h, h2⟩ hxm
  have hb0 : b = 0 := by
    rcases gy with h | h
    · exact h
    · rcases ky with h2 | h2
      · exact h2
      · exact absurd ⟨h, h2⟩ hym
  have hc0 : c = 0 := by
    rcases gz with h | h
    · exact h
    · rcases kz with h2 | h2
      · exact h2
      · exact absurd ⟨h, h2⟩ hzm
  rw [ha0, hb0, hc0] at hsum
  norm_num at hsum

/-- Cross product with a scalar multiple on the left. -/
theorem cross_smul_left (t : ℚ) (u v : Pt) :
    cross (t • u) v = t * cross u v := by
  obtain ⟨u1, u2⟩ := u
  obtain ⟨v1, v2⟩ := v
  simp only [cross, Prod.smul_mk, smul_eq_mul]
  ring

/-- The perpendicular of u paired against z computes the cross product. -/
theorem dotp_perp (u z : Pt) : dotp (-u.2, u.1) z = cross u z := by
  obtain ⟨u1, u2⟩ := u
  obtain ⟨z1, z2⟩ := z
  simp only [dotp, cross]
  ring

/-- The reversed perpendicular of u paired against z computes the negated
cross product. -/
theorem dotp_perp' (u z : Pt) : dotp (u.2, -u.1) z = -cross u z := by
  obtain ⟨u1, u2⟩ := u
  obtain ⟨z1, z2⟩ := z
  simp only [dotp, cross]
  ring

/-- The cross product is additive in its second argument over subtraction. -/
theorem cross_sub_right (u v p : Pt) :
    cross u (v - p) = cross u v - cross u p := by
  obtain ⟨u1, u2⟩ := u
  obtain ⟨v1, v2⟩ := v
  obtain ⟨p1, p2⟩ := p
  simp only [cross, Prod.mk_sub_mk]
  ring

/-- The dot product is additive in its second argument over subtraction. -/
theorem dotp_sub_right (u v p : Pt) :
    dotp u (v - p) = dotp u v - dotp u p := by
  obtain ⟨u1, u2⟩ := u
  obtain ⟨v1, v2⟩ := v
  obtain ⟨p1, p2⟩ := p
  simp only [dotp, Prod.mk_sub_mk]
  ring

/-- The first component of the LexLe order is the linear functional. -/
theorem LexLe.le_dotp {w v m : Pt} (h : LexLe w v m) :
    dotp w v ≤ dotp w m := by
  rcases h with h | ⟨h, -⟩
  · exact le_of_lt h
  · exact le_of_eq h

/-- The degeneracy test fails exactly for sets of at least three points
containing a non-collinear triple. -/
theorem degenerateB_eq_false_iff {S : List Pt} :
    degenerateB S = false ↔ 3 ≤ S.length ∧
      ∃ x ∈ S, ∃ y ∈ S, ∃ z ∈ S, cross (y - x) (z - x) ≠ 0 := by
  unfold degenerateB
  rw [Bool.or_eq_false_iff, decide_eq_false_iff_not, not_lt]
  constructor
  · rintro ⟨hlen, hall⟩
    refine ⟨hlen, ?_⟩
    by_contra hno
    push_neg at hno
    have hT : (S.all fun x => S.all fun y => S.all fun z =>
        decide (cross (y - x) (z - x) = 0)) = true := by
      simp only [List.all_eq_true, decide_eq_true_eq]
      exact fun x hx y hy z hz => hno x hx y hy z hz
    rw [hT] at hall
    cases hall
  · rintro ⟨hlen, x, hx, y, hy, z, hz, hcr⟩
    refine ⟨hlen, ?_⟩
    by_contra hall
    rw [Bool.not_eq_false] at hall
    simp only [List.all_eq_true, decide_eq_true_eq] at hall
    exact hcr (hall x hx y hy z hz)

/-- A LexLe-greatest element of a set survives the redundancy test. -/
theorem lexLe_max_not_redundantB {w m : Pt} {S : List Pt}
    (hmax : ∀ v ∈ S, LexLe w v m) : redundantB m S = false := by
  by_contra hred
  rw [Bool.not_eq_false] at hred
  simp only [redundantB, List.any_eq_true] at hred
  rcases hred with ⟨x, hx, y, hy, z, hz, htri⟩
  rw [List.mem_filter] at hx hy hz
  exact lexLe_max_not_in_triple
    (hmax x (List.mem_dedup.1 hx.1)) (hmax y (List.mem_dedup.1 hy.1))
    (hmax z (List.mem_dedup.1 hz.1))
    (of_decide_eq_true hx.2) (of_decide_eq_true hy.2) (of_decide_eq_true hz.2)
    (inTriB_iff_mem_triple.1 htri)

/-- A non-degenerate set has three member points spanning a proper triangle
each of which survives the redundancy test: three extreme points witnessing
that the reduced hull is again non-degenerate. -/
theorem exists_three_extremal {S : List Pt} (h : degenerateB S = false) :
    ∃ p ∈ S, ∃ q ∈ S, ∃ r ∈ S,
      cross (q - p) (r - p) ≠ 0 ∧
      redundantB p S = false ∧ redundantB q S = false ∧
      redundantB r S = false := by
  rcases degenerateB_eq_false_iff.1 h with ⟨hlen, x0, hx0, y0, hy0, z0, hz0, hcr0⟩
  have hSne : S ≠ [] := by
    intro hS
    rw [hS] at hlen
    simp at hlen
  rcases exists_lexLe_max (1, 0) S hSne with ⟨p, hpS, hpmax⟩
  rcases exists_lexLe_max (-1, 0) S hSne with ⟨q, hqS, hqmax⟩
  have hpq : p ≠ q := by
    intro hpq
    have hxcoord : ∀ v ∈ S, v.1 = p.1 := by
      intro v hv
      have h1 := hpmax v hv
      have h2 := hqmax v hv
      rw [← hpq] at h2
      unfold LexLe at h1 h2
      simp only [dotp] at h1 h2
      simp at h1 h2
      rcases h1 with h1 | ⟨h1, -⟩ <;> rcases h2 with h2 | ⟨h2, -⟩ <;> linarith
    apply hcr0
    obtain ⟨a1, a2⟩ := x0
    obtain ⟨b1, b2⟩ := y0
    obtain ⟨c1, c2⟩ := z0
    have e1 : b1 = p.1 := hxcoord (b1, b2) hy0
    have e2 : a1 = p.1 := hxcoord (a1, a2) hx0
    have e3 : c1 = p.1 := hxcoord (c1, c2) hz0
    simp only [cross, Prod.mk_sub_mk]
    linear_combination (c2 - a2) * e1 - (c2 - a2) * e2 - (b2 - a2) * e3 +
      (b2 - a2) * e2
  have hu : q - p ≠ 0 := sub_ne_zero.2 (Ne.symm hpq)
  have hs0 : ∃ s0 ∈ S, cross (q - p) (s0 - p) ≠ 0 := by
    by_contra hno
    push_neg at hno
    apply hcr0
    have hpar : ∀ v, v ∈ S → ∃ t : ℚ, v - p = t • (q - p) :=
      fun v hv => ⟨_, eq_smul_of_cross_eq_zero hu (hno v hv)⟩
    obtain ⟨t1, h1⟩ := hpar x0 hx0
    obtain ⟨t2, h2⟩ := hpar y0 hy0
    obtain ⟨t3, h3⟩ := hpar z0 hz0
    have e1 : y0 - x0 = (t2 - t1) • (q - p) := by
      rw [show y0 - x0 = (y0 - p) - (x0 - p) from by abel, h2, h1, ← sub_smul]
    have e2 : z0 - x0 = (t3 - t1) • (q - p) := by
      rw [show z0 - x0 = (z0 - p) - (x0 - p) from by abel, h3, h1, ← sub_smul]
    rw [e1, e2, cross_smul_left, cross_smul_right, cross_self]
    ring
  rcases hs0 with ⟨s0, hs0S, hs0cr⟩
  rcases lt_or_gt_of_ne hs0cr with hside | hside
  · rcases exists_lexLe_max ((q - p).2, -(q - p).1) S hSne with ⟨r, hrS, hrmax⟩
    have hfr : dotp ((q - p).2, -(q - p).1) s0 ≤ dotp ((q - p).2, -(q - p).1) r :=
      (hrmax s0 hs0S).le_dotp
    have hcr : cross (q - p) (r - p) ≠ 0 := by
      have hv1 : dotp ((q - p).2, -(q - p).1) (s0 - p) = -cross (q - p) (s0 - p) :=
        dotp_perp' (q - p) (s0 - p)
      have hv2 : dotp ((q - p).2, -(q - p).1) (r - p) = -cross (q - p) (r - p) :=
        dotp_perp' (q - p) (r - p)
      rw [dotp_sub_right] at hv1 hv2
      intro hzero
      rw [hzero] at hv2
      linarith
    exact ⟨p, hpS, q, hqS, r, hrS, hcr,
      lexLe_max_not_redundantB hpmax, lexLe_max_not_redundantB hqmax,
      lexLe_max_not_redundantB hrmax⟩
  · rcases exists_lexLe_max (-(q - p).2, (q - p).1) S hSne with ⟨r, hrS, hrmax⟩
    have hfr : dotp (-(q - p).2, (q - p).1) s0 ≤ dotp (-(q - p).2, (q - p).1) r :=
      (hrmax s0 hs0S).le_dotp
    have hcr : cross (q - p) (r - p) ≠ 0 := by
      have hv1 : dotp (-(q - p).2, (q - p).1) (s0 - p) = cross (q - p) (s0 - p) :=
        dotp_perp (q - p) (s0 - p)
      have hv2 : dotp (-(q - p).2, (q - p).1) (r - p) = cross (q - p) (r - p) :=
        dotp_perp (q - p) (r - p)
      rw [dotp_sub_right] at hv1 hv2
      intro hzero
      rw [hzero] at hv2
      linarith
    exact ⟨p, hpS, q, hqS, r, hrS, hcr,
      lexLe_max_not_redundantB hpmax, lexLe_max_not_redundantB hqmax,
      lexLe_max_not_redundantB hrmax⟩

/-- The cross product with zero on the left vanishes. -/
theorem cross_zero_left (v : Pt) : cross 0 v = 0 := by
  obtain ⟨v1, v2⟩ := v
  simp [cross]

/-- The cross product with zero on the right vanishes. -/
theorem cross_zero_right (v : Pt) : cross v 0 = 0 := by
  obtain ⟨v1, v2⟩ := v
  simp [cross]

/-- Redundancy is monotone in the ambient point list. -/
theorem redundantB_mono {p : Pt} {l S : List Pt}
    (hsub : ∀ q, q ∈ l → q ∈ S) (h : redundantB p l = true) :
    redundantB p S = true := by
  simp only [redundantB, List.any_eq_true] at h ⊢
  rcases h with ⟨x, hx, y, hy, z, hz, htri⟩
  rw [List.mem_filter] at hx hy hz
  exact ⟨x, List.mem_filter.2
      ⟨List.mem_dedup.2 (hsub x (List.mem_dedup.1 hx.1)), hx.2⟩,
    y, List.mem_filter.2
      ⟨List.mem_dedup.2 (hsub y (List.mem_dedup.1 hy.1)), hy.2⟩,
    z, List.mem_filter.2
      ⟨List.mem_dedup.2 (hsub z (List.mem_dedup.1 hz.1)), hz.2⟩, htri⟩

/-- C1: for every initial region, flow matrix and positive step size, a
successful data-returning call emits as its second record the name
mat_exp(flow) * I paired with the hull reduction of the set obtained by
applying M = matExp(step_size * flow) as a linear map to each point v of
the initial region (M @ v for every vertex v). -/
theorem C1_propagated_record (matExp : Mat2 → Mat2) (i : List Pt) (flow : Mat2)
    (b : List Pt) (s : ℚ) (hs : 0 < s) (ps : List Polytope)
    (h : approx matExp i flow b s false = .ok (some ps)) :
    ∃ vs, ConvexHull (i.map (mulVec (matExp (smulM s flow)))) = .ok vs ∧
      ps[1]? = some ⟨"mat_exp(flow) * I", vs⟩ := by
  rcases approx_shape h with ⟨v0, v1, v2, tail, h0, h1, h2s, ht, rfl⟩
  exact ⟨v1, h1, rfl⟩

/-- C1 witness: concrete instance of the propagated-record theorem. -/
theorem C1_propagated_record_witness :
    (0 : ℚ) < 1 ∧
    ∃ vs, ConvexHull (wTri.map (mulVec (wMatExp (smulM 1 Mat2.zeroM)))) = .ok vs ∧
      ([⟨"Initial Valuation I", wTri⟩, ⟨"mat_exp(flow) * I", wTri⟩,
        ⟨"Omega_1: convHull(mink_sum(mat_exp(flow) * I, bloat), I)", wTri⟩] :
        List Polytope)[1]? = some ⟨"mat_exp(flow) * I", vs⟩ :=
  ⟨by decide, C1_propagated_record wMatExp wTri Mat2.zeroM [] 1 (by decide) _ (by decide)⟩

/-- C2: with a non-empty bloating region, the enclosure record's pre-hull
point set is the full Cartesian-product Minkowski sum (of size
propagated times bloating) concatenated with the raw initial points, and
the emitted enclosure is its hull reduction. -/
theorem C2_enclosure_minkowski (matExp : Mat2 → Mat2) (i : List Pt) (flow : Mat2)
    (b : List Pt) (s : ℚ) (ps : List Polytope) (hb : b ≠ [])
    (h : approx matExp i flow b s false = .ok (some ps)) :
    (minkSum (flowpipeOf matExp i flow s) b).length
        = (flowpipeOf matExp i flow s).length * b.length ∧
    ∃ vs, ConvexHull (minkSum (flowpipeOf matExp i flow s) b ++ i) = .ok vs ∧
      ps[2]? = some ⟨"Omega_1: convHull(mink_sum(mat_exp(flow) * I, bloat), I)", vs⟩ := by
  rcases approx_shape h with ⟨v0, v1, v2, tail, h0, h1, h2s, ht, rfl⟩
  have hbe : b.isEmpty = false := by
    cases b with
    | nil => exact absurd rfl hb
    | cons x xs => rfl
  rw [hbe] at h2s
  simp only [Bool.false_eq_true, if_false] at h2s
  exact ⟨minkSum_length _ _, v2, h2s, by simp⟩

/-- C2 witness: concrete instance of the Minkowski-enclosure theorem. -/
theorem C2_enclosure_minkowski_witness :
    (minkSum (flowpipeOf wMatExp wTri Mat2.zeroM 1) wBloat).length
        = (flowpipeOf wMatExp wTri Mat2.zeroM 1).length * wBloat.length ∧
    ∃ vs, ConvexHull (minkSum (flowpipeOf wMatExp wTri Mat2.zeroM 1) wBloat ++ wTri) = .ok vs ∧
      ([⟨"Initial Valuation I", wTri⟩, ⟨"mat_exp(flow) * I", wTri⟩,
        ⟨"Omega_1: convHull(mink_sum(mat_exp(flow) * I, bloat), I)",
          [(5, 0), (0, 5), (0, 0)]⟩, ⟨"Bloating", wBloat⟩] :
        List Polytope)[2]? =
        some ⟨"Omega_1: convHull(mink_sum(mat_exp(flow) * I, bloat), I)", vs⟩ :=
  C2_enclosure_minkowski wMatExp wTri Mat2.zeroM wBloat 1 _ (by decide) (by decide)

/-- C3: whenever any of the records built by approx has a degenerate
pre-hull point set (fewer than 3 points, or exactly collinear), the call
raises the degenerate-geometry error and aborts with no partial result. -/
theorem C3_degenerate_aborts (matExp : Mat2 → Mat2) (i : List Pt) (flow : Mat2)
    (b : List Pt) (s : ℚ)
    (hdeg : ∃ P ∈ prePolytopes matExp i flow b s, degenerateB P.vertices = true) :
    ∀ plot : Bool, approx matExp i flow b s plot = .error .degenerateGeometry :=
  fun _ => approx_eq_error_iff.2 (hullEach_eq_error_iff.2 ⟨rfl, hdeg⟩)

/-- C3 witness: the collinear initial region named by the spec aborts the
call with the degenerate-geometry error. -/
theorem C3_degenerate_aborts_witness :
    (∃ P ∈ prePolytopes wMatExp wColl Mat2.zeroM [] 1, degenerateB P.vertices = true) ∧
    approx wMatExp wColl Mat2.zeroM [] 1 false = .error .degenerateGeometry :=
  ⟨by decide, C3_degenerate_aborts wMatExp wColl Mat2.zeroM [] 1 (by decide) false⟩

/-- C4: a successful data-returning call yields the records in the fixed
order Initial Valuation I, mat_exp(flow) * I, Omega_1, with a fourth
Bloating record (the bloating region hull-reduced) exactly when the
bloating region is non-empty. -/
theorem C4_record_order (matExp : Mat2 → Mat2) (i : List Pt) (flow : Mat2)
    (b : List Pt) (s : ℚ) (ps : List Polytope)
    (h : approx matExp i flow b s false = .ok (some ps)) :
    ps.map Polytope.name =
      ["Initial Valuation I", "mat_exp(flow) * I",
        "Omega_1: convHull(mink_sum(mat_exp(flow) * I, bloat), I)"] ++
      (if b.isEmpty then [] else ["Bloating"]) ∧
    (b ≠ [] → ∃ vs, ConvexHull b = .ok vs ∧ ps[3]? = some ⟨"Bloating", vs⟩) ∧
    (b = [] → ps.length = 3) := by
  rcases approx_shape h with ⟨v0, v1, v2, tail, h0, h1, h2s, ht, rfl⟩
  cases hb : b.isEmpty
  · rw [hb] at ht
    simp only [Bool.false_eq_true, if_false] at ht
    rcases ht with ⟨v3, hv3, rfl⟩
    refine ⟨by simp [hb], fun _ => ⟨v3, hv3, rfl⟩, fun hnil => ?_⟩
    rw [hnil] at hb
    cases hb
  · rw [hb] at ht
    simp only [if_true] at ht
    subst ht
    have hnil : b = [] := List.isEmpty_iff.1 hb
    exact ⟨by simp [hb], fun hne => absurd hnil hne, fun _ => rfl⟩

/-- C4 witness: concrete instance of the record-order theorem with a
non-empty bloating region. -/
theorem C4_record_order_witness :
    ([⟨"Initial Valuation I", wTri⟩, ⟨"mat_exp(flow) * I", wTri⟩,
      ⟨"Omega_1: convHull(mink_sum(mat_exp(flow) * I, bloat), I)",
        [(5, 0), (0, 5), (0, 0)]⟩, ⟨"Bloating", wBloat⟩] :
      List Polytope).map Polytope.name =
      ["Initial Valuation I", "mat_exp(flow) * I",
        "Omega_1: convHull(mink_sum(mat_exp(flow) * I, bloat), I)"] ++
      (if wBloat.isEmpty then [] else ["Bloating"]) ∧
    (wBloat ≠ [] → ∃ vs, ConvexHull wBloat = .ok vs ∧
      ([⟨"Initial Valuation I", wTri⟩, ⟨"mat_exp(flow) * I", wTri⟩,
        ⟨"Omega_1: convHull(mink_sum(mat_exp(flow) * I, bloat), I)",
          [(5, 0), (0, 5), (0, 0)]⟩, ⟨"Bloating", wBloat⟩] :
        List Polytope)[3]? = some ⟨"Bloating", vs⟩) ∧
    (wBloat = [] → ([⟨"Initial Valuation I", wTri⟩, ⟨"mat_exp(flow) * I", wTri⟩,
      ⟨"Omega_1: convHull(mink_sum(mat_exp(flow) * I, bloat), I)",
        [(5, 0), (0, 5), (0, 0)]⟩, ⟨"Bloating", wBloat⟩] :
      List Polytope).length = 3) :=
  C4_record_order wMatExp wTri Mat2.zeroM wBloat 1 _ (by decide)

/-- C5: with an empty bloating region no Bloating record is emitted and the
enclosure record is the hull reduction of the propagated points followed by
the initial region's points. -/
theorem C5_empty_bloating (matExp : Mat2 → Mat2) (i : List Pt) (flow : Mat2)
    (s : ℚ) (ps : List Polytope)
    (h : approx matExp i flow [] s false = .ok (some ps)) :
    ps.map Polytope.name =
      ["Initial Valuation I", "mat_exp(flow) * I",
        "Omega_1: convHull(mink_sum(mat_exp(flow) * I, bloat), I)"] ∧
    ∃ vs, ConvexHull (flowpipeOf matExp i flow s ++ i) = .ok vs ∧
      ps[2]? = some ⟨"Omega_1: convHull(mink_sum(mat_exp(flow) * I, bloat), I)", vs⟩ := by
  rcases approx_shape h with ⟨v0, v1, v2, tail, h0, h1, h2s, ht, rfl⟩
  simp only [List.isEmpty_nil, if_true] at h2s ht
  subst ht
  exact ⟨by simp, v2, h2s, rfl⟩

/-- C5 witness: concrete instance of the empty-bloating theorem. -/
theorem C5_empty_bloating_witness :
    ([⟨"Initial Valuation I", wTri⟩, ⟨"mat_exp(flow) * I", wTri⟩,
      ⟨"Omega_1: convHull(mink_sum(mat_exp(flow) * I, bloat), I)", wTri⟩] :
      List Polytope).map Polytope.name =
      ["Initial Valuation I", "mat_exp(flow) * I",
        "Omega_1: convHull(mink_sum(mat_exp(flow) * I, bloat), I)"] ∧
    ∃ vs, ConvexHull (flowpipeOf wMatExp wTri Mat2.zeroM 1 ++ wTri) = .ok vs ∧
      ([⟨"Initial Valuation I", wTri⟩, ⟨"mat_exp(flow) * I", wTri⟩,
        ⟨"Omega_1: convHull(mink_sum(mat_exp(flow) * I, bloat), I)", wTri⟩] :
        List Polytope)[2]? =
        some ⟨"Omega_1: convHull(mink_sum(mat_exp(flow) * I, bloat), I)", vs⟩ :=
  C5_empty_bloating wMatExp wTri Mat2.zeroM 1 _ (by decide)

/-- C6: hull reduction is idempotent — applied to its own output it yields
exactly the same vertex list — and every emitted vertex is extremal: it is
not a convex combination of the other emitted vertices of the same set
(it lies outside their convex hull). -/
theorem C6_hull_idempotent_extremal (S vs : List Pt)
    (h : ConvexHull S = .ok vs) :
    ConvexHull vs = .ok vs ∧
    ∀ p ∈ vs, p ∉ convexHull ℚ {q | q ∈ vs ∧ q ≠ p} := by
  rcases ConvexHull_eq_ok_iff.1 h with ⟨hdeg, rfl⟩
  set vs := S.dedup.filter fun p => !redundantB p S with hvs
  have hnodup : vs.Nodup := (List.nodup_dedup S).filter _
  have hsubS : ∀ q, q ∈ vs → q ∈ S := fun q hq =>
    List.mem_dedup.1 (List.mem_of_mem_filter hq)
  have hnotred : ∀ q, q ∈ vs → redundantB q S = false := by
    intro q hq
    have hf := List.of_mem_filter hq
    simpa using hf
  have hext : ∀ p ∈ vs, p ∉ convexHull ℚ {q | q ∈ vs ∧ q ≠ p} := by
    intro p hp hmem
    have hmono : {q | q ∈ vs ∧ q ≠ p} ⊆ {q | q ∈ S ∧ q ≠ p} := fun q hq =>
      ⟨hsubS q hq.1, hq.2⟩
    have hred : p ∈ convexHull ℚ {q | q ∈ S ∧ q ≠ p} :=
      convexHull_mono hmono hmem
    rw [← redundantB_iff, hnotred p hp] at hred
    cases hred
  refine ⟨?_, hext⟩
  rcases exists_three_extremal hdeg with
    ⟨p, hpS, q, hqS, r, hrS, hcr, hpred, hqred, hrred⟩
  have hpv : p ∈ vs :=
    List.mem_filter.2 ⟨List.mem_dedup.2 hpS, by rw [hpred]; rfl⟩
  have hqv : q ∈ vs :=
    List.mem_filter.2 ⟨List.mem_dedup.2 hqS, by rw [hqred]; rfl⟩
  have hrv : r ∈ vs :=
    List.mem_filter.2 ⟨List.mem_dedup.2 hrS, by rw [hrred]; rfl⟩
  have hpq : p ≠ q := by
    rintro rfl
    rw [sub_self, cross_zero_left] at hcr
    exact hcr rfl
  have hpr : p ≠ r := by
    rintro rfl
    rw [sub_self, cross_zero_right] at hcr
    exact hcr rfl
  have hqr : q ≠ r := by
    rintro rfl
    rw [cross_self] at hcr
    exact hcr rfl
  have hlen3 : 3 ≤ vs.length := by
    have hfin : ({p, q, r} : Finset Pt) ⊆ vs.toFinset := by
      intro u hu
      simp only [Finset.mem_insert, Finset.mem_singleton] at hu
      rcases hu with rfl | rfl | rfl
      · exact List.mem_toFinset.2 hpv
      · exact List.mem_toFinset.2 hqv
      · exact List.mem_toFinset.2 hrv
    have hcard : ({p, q, r} : Finset Pt).card = 3 := by
      rw [Finset.card_insert_of_not_mem (by simp [hpq, hpr]),
        Finset.card_insert_of_not_mem (by simp [hqr]), Finset.card_singleton]
    calc 3 = ({p, q, r} : Finset Pt).card := hcard.symm
      _ ≤ vs.toFinset.card := Finset.card_le_card hfin
      _ = vs.length := by rw [List.toFinset_card_of_nodup hnodup]
  have hkeep : ∀ x ∈ vs, (!redundantB x vs) = true := by
    intro x hx
    have hxf : redundantB x vs = false := by
      by_contra hT
      rw [Bool.not_eq_false] at hT
      have hxS : redundantB x S = true := redundantB_mono hsubS hT
      rw [hnotred x hx] at hxS
      cases hxS
    rw [hxf]
    rfl
  rw [ConvexHull_eq_ok_iff]
  refine ⟨degenerateB_eq_false_iff.2 ⟨hlen3, p, hpv, q, hqv, r, hrv, hcr⟩, ?_⟩
  rw [List.Nodup.dedup hnodup, List.filter_eq_self.2 hkeep]

/-- C6 witness: concrete instance of the idempotence and extremality
theorem on a square set with one interior point. -/
theorem C6_hull_idempotent_extremal_witness :
    ConvexHull [((0 : ℚ), (0 : ℚ)), (4, 0), (0, 4), (1, 1)] =
      .ok [(0, 0), (4, 0), (0, 4)] ∧
    (ConvexHull [((0 : ℚ), (0 : ℚ)), (4, 0), (0, 4)] =
        .ok [(0, 0), (4, 0), (0, 4)] ∧
      ∀ p ∈ ([((0 : ℚ), (0 : ℚ)), (4, 0), (0, 4)] : List Pt),
        p ∉ convexHull ℚ
          {q | q ∈ ([((0 : ℚ), (0 : ℚ)), (4, 0), (0, 4)] : List Pt) ∧ q ≠ p}) :=
  ⟨by decide, C6_hull_idempotent_extremal
    [((0 : ℚ), (0 : ℚ)), (4, 0), (0, 4), (1, 1)] [(0, 0), (4, 0), (0, 4)]
    (by decide)⟩

/-- C7: the matrix exponential of any step-size multiple of the zero flow
matrix is the identity (stated of the mathematical matrix exponential on
real 2x2 matrices, which the scipy primitive implements), and whenever the
exponential primitive maps the zero matrix to the identity, the propagated
point set equals the initial region pointwise, so the emitted propagated
record carries exactly the same hull-reduced vertex list as the initial
record (equal, in particular up to hull-vertex reordering). -/
theorem C7_zero_flow_identity :
    (∀ s : ℝ, NormedSpace.exp ℝ (s • (0 : Matrix (Fin 2) (Fin 2) ℝ)) = 1) ∧
    ∀ (matExp : Mat2 → Mat2) (i b : List Pt) (s : ℚ) (ps : List Polytope),
      matExp Mat2.zeroM = Mat2.idM →
      approx matExp i Mat2.zeroM b s false = .ok (some ps) →
      flowpipeOf matExp i Mat2.zeroM s = i ∧
      ∃ vs, ps[0]? = some ⟨"Initial Valuation I", vs⟩ ∧
        ps[1]? = some ⟨"mat_exp(flow) * I", vs⟩ := by
  constructor
  · intro s
    rw [smul_zero]
    exact NormedSpace.exp_zero
  · intro matExp i b s ps hexp h
    have hfl : flowpipeOf matExp i Mat2.zeroM s = i := by
      unfold flowpipeOf
      rw [smulM_zeroM, hexp, show mulVec Mat2.idM = id from funext mulVec_idM,
        List.map_id]
    rcases approx_shape h with ⟨v0, v1, v2, tail, h0, h1, h2s, ht, rfl⟩
    rw [hfl, h0] at h1
    injection h1 with h1
    subst h1
    exact ⟨hfl, v0, rfl, rfl⟩

/-- C7 witness: concrete instance of the zero-flow theorem. -/
theorem C7_zero_flow_identity_witness :
    (wMatExp Mat2.zeroM = Mat2.idM) ∧
    (flowpipeOf wMatExp wTri Mat2.zeroM 7 = wTri ∧
      ∃ vs, ([⟨"Initial Valuation I", wTri⟩, ⟨"mat_exp(flow) * I", wTri⟩,
        ⟨"Omega_1: convHull(mink_sum(mat_exp(flow) * I, bloat), I)", wTri⟩] :
        List Polytope)[0]? = some ⟨"Initial Valuation I", vs⟩ ∧
        ([⟨"Initial Valuation I", wTri⟩, ⟨"mat_exp(flow) * I", wTri⟩,
          ⟨"Omega_1: convHull(mink_sum(mat_exp(flow) * I, bloat), I)", wTri⟩] :
          List Polytope)[1]? = some ⟨"mat_exp(flow) * I", vs⟩) :=
  ⟨rfl, C7_zero_flow_identity.2 wMatExp wTri [] 7 _ rfl (by decide)⟩

/-- C8 (amended): the call performs no step-size validation; with a
non-positive step size nothing is rejected, and the only error the call can
ever raise is the degenerate-geometry failure of hull reduction — never an
invalid-input error. -/
theorem C8_no_step_size_validation (matExp : Mat2 → Mat2) (i : List Pt)
    (flow : Mat2) (b : List Pt) (s : ℚ) (plot : Bool) (e : GeomError)
    (hs : s ≤ 0) (h : approx matExp i flow b s plot = .error e) :
    e = .degenerateGeometry :=
  (hullEach_eq_error_iff.1 (approx_eq_error_iff.1 h)).1

/-- C8 witness: a failing call at a non-positive step size fails with the
degenerate-geometry error, not an invalid-input error. -/
theorem C8_no_step_size_validation_witness :
    ((-1 : ℚ) ≤ 0) ∧
    approx wMatExp wColl2 Mat2.zeroM [] (-1) false = .error .degenerateGeometry ∧
    GeomError.degenerateGeometry = .degenerateGeometry :=
  ⟨by decide, by decide,
    C8_no_step_size_validation wMatExp wColl2 Mat2.zeroM [] (-1) false _
      (by decide) (by decide)⟩

/-- C8 counterexample: a call with the non-positive step size -1 raises no
error at all — it returns its ordinary result — so the claim that a
non-positive step size raises an invalid-input error is false on the code.
The exponential argument here is step_size * flow = (-1) * 0 = 0, where the
scipy primitive returns exactly the identity matrix. -/
theorem C8_counterexample :
    ((-1 : ℚ) ≤ 0) ∧
    approx wMatExp wTri Mat2.zeroM [] (-1) false =
      .ok (some [⟨"Initial Valuation I", wTri⟩, ⟨"mat_exp(flow) * I", wTri⟩,
        ⟨"Omega_1: convHull(mink_sum(mat_exp(flow) * I, bloat), I)", wTri⟩]) :=
  ⟨by decide, by decide⟩

/-- C9: every emitted record pairs, in order, with the record built before
hull reduction, keeping its name, and every vertex of the emitted record is
one of the points of that record's pre-hull candidate set: hull reduction
only selects a subset of its input points. -/
theorem C9_hull_vertices_from_input (matExp : Mat2 → Mat2) (i : List Pt)
    (flow : Mat2) (b : List Pt) (s : ℚ) (ps : List Polytope)
    (h : approx matExp i flow b s false = .ok (some ps)) :
    List.Forall₂ (fun P Q => Q.name = P.name ∧ ∀ v ∈ Q.vertices, v ∈ P.vertices)
      (prePolytopes matExp i flow b s) ps :=
  List.Forall₂.imp (fun _ _ hPQ => ⟨hPQ.1, ConvexHull_mem_of_ok hPQ.2⟩)
    (hullEach_eq_ok_iff.1 (approx_eq_ok_some_iff.1 h))

/-- C9 witness: concrete instance of the vertex-subset theorem. -/
theorem C9_hull_vertices_from_input_witness :
    List.Forall₂ (fun P Q => Q.name = P.name ∧ ∀ v ∈ Q.vertices, v ∈ P.vertices)
      (prePolytopes wMatExp wTri Mat2.zeroM wBloat 1)
      ([⟨"Initial Valuation I", wTri⟩, ⟨"mat_exp(flow) * I", wTri⟩,
        ⟨"Omega_1: convHull(mink_sum(mat_exp(flow) * I, bloat), I)",
          [(5, 0), (0, 5), (0, 0)]⟩, ⟨"Bloating", wBloat⟩] : List Polytope) :=
  C9_hull_vertices_from_input wMatExp wTri Mat2.zeroM wBloat 1 _ (by decide)

/-- C10: the rendering flag defaults to true, so a call that omits it (and
therefore passes the declared default) is the same call as one with the
flag true; with the flag true a successful call returns the plotting
routine's result None rather than the records; the records are returned as
data exactly when the flag is explicitly false. -/
theorem C10_plot_flag_default :
    (plot_default = true ∧
      ∀ (matExp : Mat2 → Mat2) (i : List Pt) (flow : Mat2) (b : List Pt) (s : ℚ),
      approx matExp i flow b s plot_default = approx matExp i flow b s true) ∧
    (∀ (matExp : Mat2 → Mat2) (i : List Pt) (flow : Mat2) (b : List Pt) (s : ℚ) r,
      approx matExp i flow b s true = .ok r → r = none) ∧
    (∀ (matExp : Mat2 → Mat2) (i : List Pt) (flow : Mat2) (b : List Pt) (s : ℚ) r,
      approx matExp i flow b s false = .ok r →
      ∃ ps, r = some ps ∧ hullEach (prePolytopes matExp i flow b s) = .ok ps) := by
  refine ⟨⟨rfl, fun _ _ _ _ _ => rfl⟩, ?_, ?_⟩
  · intro matExp i flow b s r h
    unfold approx at h
    rcases hE : hullEach (prePolytopes matExp i flow b s) with e | l
    · rw [hE] at h; cases h
    · rw [hE] at h
      injection h with h
      rw [← h]
      rfl
  · intro matExp i flow b s r h
    unfold approx at h
    rcases hE : hullEach (prePolytopes matExp i flow b s) with e | l
    · rw [hE] at h; cases h
    · rw [hE] at h
      injection h with h
      refine ⟨l, ?_, rfl⟩
      rw [← h]
      simp

/-- C10 witness: concrete instances of all three parts of the
rendering-flag theorem. -/
theorem C10_plot_flag_default_witness :
    (approx wMatExp wTri Mat2.zeroM [] 1 plot_default =
      approx wMatExp wTri Mat2.zeroM [] 1 true) ∧
    ((none : Option (List Polytope)) = none) ∧
    ∃ ps, (some [(⟨"Initial Valuation I", wTri⟩ : Polytope), ⟨"mat_exp(flow) * I", wTri⟩,
        ⟨"Omega_1: convHull(mink_sum(mat_exp(flow) * I, bloat), I)", wTri⟩] :
        Option (List Polytope)) = some ps ∧
      hullEach (prePolytopes wMatExp wTri Mat2.zeroM [] 1) = .ok ps :=
  ⟨C10_plot_flag_default.1.2 wMatExp wTri Mat2.zeroM [] 1,
    C10_plot_flag_default.2.1 wMatExp wTri Mat2.zeroM [] 1 none (by decide),
    C10_plot_flag_default.2.2 wMatExp wTri Mat2.zeroM [] 1 _ (by decide)⟩

end Flowp
